import Mathlib

/-!
Verification of the Transcribe repository (transcribe.py / txt_to_docx.py).

The development shallowly embeds the two scripts' reusable core:
  * the transcript Writer's body-writing loop (`writeBody`, transcribe.py
    lines 89-105) together with `format_timestamp` (lines 55-58);
  * the transcript Parser (`parse_transcript`, txt_to_docx.py lines 15-57)
    with its header regular expression `TIMESTAMP_LINE_RE` (lines 10-12);
  * the document renderer (`create_docx_from_transcript`,
    txt_to_docx.py lines 78-161) over an abstract paragraph model.

Strings are modelled as `List Char`.  Python's Unicode-aware character
classes (`\d`, `\s`, `\w`, `str.strip`) are modelled by their ASCII
restrictions, which agree with Python on every ASCII input; all inputs
appearing in the theorems below are ASCII.
-/

namespace Transcribe

/-- A line of text (Python string without the trailing newline). -/
abbrev Line := List Char

/-- A parsed utterance: (timestamp, speaker, text), exactly the tuple
`(timestamp, speaker, text)` produced by `parse_transcript`. -/
abbrev Entry := List Char × List Char × List Char

/-! ### Character classes (ASCII restrictions of Python's `\s`, `\d`, `\w`) -/

/-- Python whitespace (`\s` and `str.strip`), ASCII part:
space, tab, newline, carriage return, vertical tab, form feed. -/
def isWs (c : Char) : Bool :=
  c = ' ' || c = '\t' || c = '\n' || c = '\r' || c = '\x0b' || c = '\x0c'

/-- Python `\w` (word character), ASCII part: alphanumeric or underscore. -/
def isWord (c : Char) : Bool :=
  c.isAlphanum || c = '_'

/-- Python `str.strip()`: drop leading and trailing whitespace. -/
def pyStrip (l : List Char) : List Char :=
  ((l.dropWhile isWs).reverse.dropWhile isWs).reverse

/-- Python `" ".join(xs)`. -/
def joinSpace : List (List Char) → List Char
  | [] => []
  | [x] => x
  | x :: xs => x ++ ' ' :: joinSpace xs

/-! ### Splitting a file's byte content into lines

`parse_transcript` reads `[line.rstrip("\n") for line in f]`: the file's
content is split at every `'\n'`, a final segment after the last `'\n'`
is kept only when non-empty (Python's file iteration yields no empty
final line for a newline-terminated file). -/

/-- Full split of a character list at `'\n'`; always non-empty. -/
def splitNl : List Char → List (List Char)
  | [] => [[]]
  | c :: rest =>
    if c = '\n' then [] :: splitNl rest
    else
      match splitNl rest with
      | [] => [[c]]
      | l :: ls => (c :: l) :: ls

/-- The list of lines a Python program sees when iterating over a file
with content `s` and stripping the trailing newline of each line. -/
def splitLines : List Char → List (List Char)
  | [] => []
  | c :: rest =>
    if c = '\n' then [] :: splitLines rest
    else
      match splitLines rest with
      | [] => [[c]]
      | l :: ls => (c :: l) :: ls

/-! ### The header pattern

`TIMESTAMP_LINE_RE = re.compile(r"^\[(\d{1,2}:\d{2}:\d{2})\]\s+(Speaker\s+\w+):\s*$")`

The regex is anchored and every quantified class is disjoint from the
literal that follows it (`\d` from `:`, `\s` from `S`, `\s` from `\w`,
`\w` from `:`), so greedy matching with backtracking coincides with the
committed maximal-munch matcher below. -/

/-- Consume an exact literal from the front of a line. -/
def dropLit : List Char → List Char → Option (List Char)
  | [], l => some l
  | _ :: _, [] => none
  | p :: ps, c :: cs => if c = p then dropLit ps cs else none

/-- Consume exactly two decimal digits (`\d{2}`). -/
def take2Digits : List Char → Option (List Char × List Char)
  | a :: b :: r => if a.isDigit && b.isDigit then some ([a, b], r) else none
  | _ => none

/-- The part of the header pattern after `\]`: `\s+(Speaker\s+\w+):\s*$`.
Returns the two capture groups on success. -/
def afterBracket (ds mm ss : List Char) (r6 : List Char) :
    Option (List Char × List Char) :=
  let ws1 := r6.takeWhile isWs
  let r7 := r6.dropWhile isWs
  if ws1.length = 0 then none else
  match dropLit "Speaker".toList r7 with
  | none => none
  | some r8 =>
    let ws2 := r8.takeWhile isWs
    let r9 := r8.dropWhile isWs
    if ws2.length = 0 then none else
    let w := r9.takeWhile isWord
    let r10 := r9.dropWhile isWord
    if w.length = 0 then none else
    match dropLit [':'] r10 with
    | none => none
    | some r11 =>
      if r11.all isWs then
        some (ds ++ (':' :: (mm ++ (':' :: ss))), "Speaker".toList ++ (ws2 ++ w))
      else none

/-- `TIMESTAMP_LINE_RE.match(line)`: on success returns
`(group 1, group 2)`, the timestamp and the speaker label. -/
def matchHeader (l : List Char) : Option (List Char × List Char) :=
  match dropLit ['['] l with
  | none => none
  | some r0 =>
    let ds := r0.takeWhile Char.isDigit
    let r1 := r0.dropWhile Char.isDigit
    if ds.length = 0 || 2 < ds.length then none else
    match dropLit [':'] r1 with
    | none => none
    | some r2 =>
      match take2Digits r2 with
      | none => none
      | some (mm, r3) =>
        match dropLit [':'] r3 with
        | none => none
        | some r4 =>
          match take2Digits r4 with
          | none => none
          | some (ss, r5) =>
            match dropLit [']'] r5 with
            | none => none
            | some r6 => afterBracket ds mm ss r6

/-! ### The parser (`parse_transcript`, txt_to_docx.py lines 15-57) -/

/-- Condition of the inner collection loop (lines 42-46):
`lines[i].strip() != "" and not TIMESTAMP_LINE_RE.match(lines[i])`. -/
def keepLine (l : List Char) : Bool :=
  !(pyStrip l).isEmpty && (matchHeader l).isNone

/-- Condition of the blank-separator loop (line 54):
`lines[i].strip() == ""`. -/
def isBlankLine (l : List Char) : Bool :=
  (pyStrip l).isEmpty

/-- The main scanning loop of `parse_transcript` (lines 30-56), written
with a fuel argument (any fuel at least the number of remaining lines
computes the loop exactly; `parse_transcript` supplies it).
A non-matching line is skipped (lines 32-34); a matching line starts an
entry, collects the following kept lines as the utterance text
(lines 40-51) and then skips the blank separator lines (lines 53-55). -/
def parseMainF : Nat → List (List Char) → List Entry
  | 0, _ => []
  | _ + 1, [] => []
  | f + 1, l :: ls =>
    match matchHeader l with
    | none => parseMainF f ls
    | some (ts, sp) =>
      (ts, sp, pyStrip (joinSpace ((ls.takeWhile keepLine).map pyStrip))) ::
        parseMainF f ((ls.dropWhile keepLine).dropWhile isBlankLine)

/-- `parse_transcript` on the list of lines of the file: first skip all
lines before the first header line (lines 27-28), then run the main
loop. -/
def parse_transcript (lines : List (List Char)) : List Entry :=
  parseMainF lines.length (lines.dropWhile (fun l => (matchHeader l).isNone))

/-! ### The Writer (`transcribe.py`) -/

/-- Decimal digits of a natural number (`%d` formatting), with a fuel
argument sufficient for the recursion `n ↦ n / 10`. -/
def natDigitsAux : Nat → Nat → List Char
  | 0, _ => []
  | fuel + 1, n =>
    if n < 10 then [Nat.digitChar n]
    else natDigitsAux fuel (n / 10) ++ [Nat.digitChar (n % 10)]

/-- Decimal representation of a natural number. -/
def natDigits (n : Nat) : List Char := natDigitsAux (n + 1) n

/-- `%02d` formatting: pad a number below 10 with a leading zero. -/
def pad2 (n : Nat) : List Char :=
  if n < 10 then '0' :: natDigits n else natDigits n

/-- `format_timestamp(ms)` = `str(timedelta(seconds=ms // 1000))`
(transcribe.py lines 55-58).  Python's `timedelta` normalises to
days plus in-day seconds, prints `H:MM:SS` when the day count is zero
and otherwise prepends `D day, ` / `D days, `. -/
def format_timestamp (ms : Nat) : List Char :=
  let s := ms / 1000
  let d := s / 86400
  let r := s % 86400
  let hms := natDigits (r / 3600) ++ ':' :: pad2 (r % 3600 / 60) ++ ':' :: pad2 (r % 60)
  if d = 0 then hms
  else
    natDigits d ++ (if d = 1 then " day, ".toList else " days, ".toList) ++ hms

/-- One utterance of the provider's result: `utterance.speaker`,
`utterance.start` (milliseconds) and `utterance.text`. -/
structure ApiUtterance where
  speaker : List Char
  start : Nat
  text : List Char
deriving DecidableEq, Repr

/-- `f"Speaker {utterance.speaker}"` (transcribe.py line 95). -/
def mkSpeaker (u : ApiUtterance) : List Char :=
  "Speaker ".toList ++ u.speaker

/-- The characters written by
`f.write(f"[{timestamp}] {speaker}:\n")` (transcribe.py line 102). -/
def headerChunk (ts sp : List Char) : List Char :=
  '[' :: (ts ++ (']' :: ' ' :: (sp ++ [':', '\n'])))

/-- The body-writing loop of `transcribe` (transcribe.py lines 93-105):
`current_speaker` starts as `None`; a blank line plus the header line
are written only when the speaker label differs from the current one,
and the utterance text is written unconditionally, each write ending in
a newline. -/
def writeBody : Option (List Char) → List ApiUtterance → List Char
  | _, [] => []
  | cur, u :: rest =>
    let sp := mkSpeaker u
    if some sp = cur then
      u.text ++ '\n' :: writeBody cur rest
    else
      (if cur.isSome then ['\n'] else []) ++
        (headerChunk (format_timestamp u.start) sp ++
          (u.text ++ '\n' :: writeBody (some sp) rest))

/-! ### The document renderer (`txt_to_docx.py` lines 60-161)

The docx library is abstracted by a paragraph model: a document is a
list of paragraphs, a paragraph a list of runs plus an optional named
style, a run a text with bold/italic flags and an optional RGB color.
A paragraph created by `add_paragraph(text)` is modelled as one
unstyled run. -/

/-- One run of a paragraph. -/
structure DocRun where
  text : List Char
  bold : Bool
  italic : Bool
  color : Option (Nat × Nat × Nat)
deriving DecidableEq, Repr

/-- One paragraph of the document. -/
structure DocPara where
  runs : List DocRun
  styleName : Option (List Char)
deriving DecidableEq, Repr

/-- The fixed color palette (txt_to_docx.py lines 127-134). -/
def colorPalette : List (Nat × Nat × Nat) :=
  [(31, 73, 125), (79, 129, 189), (112, 48, 160),
   (0, 128, 0), (192, 80, 77), (128, 96, 0)]

/-- `color_palette[k % len(color_palette)]`. -/
def paletteAt (k : Nat) : Nat × Nat × Nat :=
  colorPalette.getD (k % colorPalette.length) (0, 0, 0)

/-- The heading paragraph of one utterance block
(txt_to_docx.py lines 146-150): one bold run `[<timestamp>] <speaker>`
in the speaker's color. -/
def headingPara (ts sp : List Char) (c : Nat × Nat × Nat) : DocPara :=
  { runs := [{ text := '[' :: (ts ++ (']' :: ' ' :: sp)), bold := true,
               italic := false, color := some c }],
    styleName := none }

/-- The text paragraph of one utterance block
(txt_to_docx.py lines 152-157): one run of the utterance text in the
speaker's color, style `Normal`. -/
def textPara (tx : List Char) (c : Nat × Nat × Nat) : DocPara :=
  { runs := [{ text := tx, bold := false, italic := false, color := some c }],
    styleName := some "Normal".toList }

/-- An empty paragraph (`document.add_paragraph()`). -/
def spacerPara : DocPara := { runs := [], styleName := none }

/-- The per-utterance rendering loop (txt_to_docx.py lines 137-159):
the speaker-to-color dict is modelled as an insertion-ordered
association list; a new speaker is assigned
`color_palette[len(speaker_colors) % len(color_palette)]`; the heading
paragraph is emitted, then the text paragraph — only when the text is
non-empty (line 153) — then a blank spacer paragraph. -/
def renderEntries : List (List Char × (Nat × Nat × Nat)) → List Entry → List DocPara
  | _, [] => []
  | colors, (ts, sp, tx) :: rest =>
    let cOpt := colors.lookup sp
    let color := match cOpt with
      | some c => c
      | none => paletteAt colors.length
    let colors' := match cOpt with
      | some _ => colors
      | none => colors ++ [(sp, color)]
    headingPara ts sp color ::
      ((if tx = [] then [] else [textPara tx color]) ++
        (spacerPara :: renderEntries colors' rest))

/-- The fixed paragraphs preceding the utterance blocks
(txt_to_docx.py lines 90-123): title, subtitle naming the source file,
the optional modification-time line (two runs, the label bold), a blank
paragraph, the italic note, and another blank paragraph. -/
def preambleParas (baseName : List Char) (meta : Option (List Char)) :
    List DocPara :=
  [{ runs := [{ text := "Therapy Session Transcript".toList, bold := false,
                italic := false, color := none }],
     styleName := some "Title".toList },
   { runs := [{ text := "Source file: ".toList ++ baseName, bold := false,
                italic := false, color := none }],
     styleName := some "Subtitle".toList }] ++
  (match meta with
   | some m =>
     [{ runs := [{ text := "Session date (file timestamp): ".toList,
                   bold := true, italic := false, color := none },
                 { text := m, bold := false, italic := false, color := none }],
        styleName := none }]
   | none => []) ++
  [{ runs := [], styleName := none },
   { runs := [{ text := ("Note: This transcript is anonymized and intended " ++
                 "for clinical/educational use. Speakers are labeled " ++
                 "generically (e.g., Speaker A, Speaker B).").toList,
                bold := false, italic := true, color := none }],
     styleName := none },
   { runs := [], styleName := none }]

/-- `create_docx_from_transcript` (txt_to_docx.py lines 78-161): parse
the lines, raise `ValueError` when no entries were parsed — before any
document is constructed — and otherwise build the document.  `meta` is
the formatted modification time when `os.path.getmtime` succeeds. -/
def create_docx_from_transcript (lines : List (List Char))
    (baseName : List Char) (meta : Option (List Char)) :
    Except (List Char) (List DocPara) :=
  let entries := parse_transcript lines
  if entries.isEmpty then
    Except.error "No transcript entries were parsed from the .txt file.".toList
  else
    Except.ok (preambleParas baseName meta ++ renderEntries [] entries)

/-- The exit code of `main` (txt_to_docx.py lines 184-188): any
exception from `create_docx_from_transcript` is caught and the process
exits with code 1; otherwise it returns normally (exit code 0). -/
def formatterExitCode (lines : List (List Char)) (baseName : List Char)
    (meta : Option (List Char)) : Nat :=
  match create_docx_from_transcript lines baseName meta with
  | Except.error _ => 1
  | Except.ok _ => 0

/-! ### Basic list helpers -/

theorem length_dropWhile_le (p : α → Bool) :
    ∀ l : List α, (l.dropWhile p).length ≤ l.length := by
  intro l
  induction l with
  | nil => simp
  | cons x xs ih =>
    by_cases h : p x
    · simpa [List.dropWhile_cons, h] using Nat.le_succ_of_le ih
    · simp [List.dropWhile_cons, h]

theorem takeWhile_all_append {p : α → Bool} {xs : List α} (ys : List α)
    (h : ∀ x ∈ xs, p x = true) :
    (xs ++ ys).takeWhile p = xs ++ ys.takeWhile p := by
  induction xs with
  | nil => simp
  | cons x xs ih =>
    have hx : p x = true := h x (by simp)
    simp only [List.cons_append, List.takeWhile_cons, hx, if_true]
    simpa using ih (fun a ha => h a (by simp [ha]))

theorem dropWhile_all_append {p : α → Bool} {xs : List α} (ys : List α)
    (h : ∀ x ∈ xs, p x = true) :
    (xs ++ ys).dropWhile p = ys.dropWhile p := by
  induction xs with
  | nil => simp
  | cons x xs ih =>
    have hx : p x = true := h x (by simp)
    simp only [List.cons_append, List.dropWhile_cons, hx, if_true]
    exact ih (fun a ha => h a (by simp [ha]))

theorem dropWhile_append_cons_of_neg {p : α → Bool} {l : α}
    (xs ys : List α) (h : p l = false) :
    (xs ++ l :: ys).dropWhile p = xs.dropWhile p ++ l :: ys := by
  induction xs with
  | nil => simp [List.dropWhile_cons, h]
  | cons x xs ih =>
    by_cases hx : p x
    · simp [List.dropWhile_cons, hx, ih]
    · simp [List.dropWhile_cons, hx]

theorem mem_of_mem_dropWhile {p : α → Bool} {l : List α} {x : α}
    (h : x ∈ l.dropWhile p) : x ∈ l := by
  have := List.takeWhile_append_dropWhile p l
  rw [← this]
  exact List.mem_append_right _ h

/-! ### Facts about `pyStrip` and `matchHeader` -/

theorem pyStrip_eq_nil_iff {l : List Char} :
    pyStrip l = [] ↔ l.all isWs = true := by
  unfold pyStrip
  rw [List.reverse_eq_nil_iff, List.dropWhile_eq_nil_iff, List.all_eq_true]
  constructor
  · intro h x hx
    rcases List.mem_append.1
        (by rw [List.takeWhile_append_dropWhile (p := isWs) (l := l)]; exact hx) with h1 | h1
    · exact List.mem_takeWhile_imp h1
    · exact h x (by simpa using h1)
  · intro h x hx
    exact h x (mem_of_mem_dropWhile (by simpa using hx))

theorem matchHeader_of_blank {l : List Char} (h : pyStrip l = []) :
    matchHeader l = none := by
  have hall := (List.all_eq_true).1 (pyStrip_eq_nil_iff.1 h)
  cases l with
  | nil => rfl
  | cons c cs =>
    have hws : isWs c = true := hall c (by simp)
    have hne : ¬ c = '[' := by
      intro hc; subst hc; simp [isWs] at hws
    simp [matchHeader, dropLit, hne]

theorem pyStrip_ne_nil_of_matchHeader {l : List Char} {v}
    (h : matchHeader l = some v) : pyStrip l ≠ [] := by
  intro hnil
  rw [matchHeader_of_blank hnil] at h
  exact Option.noConfusion h

theorem keepLine_of_blank {l : List Char} (h : pyStrip l = []) :
    keepLine l = false := by
  simp [keepLine, h]

theorem keepLine_of_header {l : List Char} {v}
    (h : matchHeader l = some v) : keepLine l = false := by
  simp [keepLine, h]

theorem isBlankLine_false_of_header {l : List Char} {v}
    (h : matchHeader l = some v) : isBlankLine l = false := by
  simpa [isBlankLine] using pyStrip_ne_nil_of_matchHeader h

/-! ### Scaffolding for the parser main loop -/

theorem parseMainF_nil : ∀ f, parseMainF f [] = [] := by
  intro f; cases f <;> rfl

theorem parseMainF_cons_none {f : Nat} {l : List Char} {ls : List (List Char)}
    (h : matchHeader l = none) :
    parseMainF (f + 1) (l :: ls) = parseMainF f ls := by
  simp [parseMainF, h]

theorem parseMainF_cons_some {f : Nat} {l ts sp : List Char}
    {ls : List (List Char)} (h : matchHeader l = some (ts, sp)) :
    parseMainF (f + 1) (l :: ls) =
      (ts, sp, pyStrip (joinSpace ((ls.takeWhile keepLine).map pyStrip))) ::
        parseMainF f ((ls.dropWhile keepLine).dropWhile isBlankLine) := by
  simp [parseMainF, h]

theorem parseMainF_fuel_irrel :
    ∀ (f g : Nat) (L : List (List Char)), L.length ≤ f → L.length ≤ g →
      parseMainF f L = parseMainF g L := by
  intro f
  induction f with
  | zero =>
    intro g L hf _
    have : L = [] := List.length_eq_zero.1 (Nat.le_zero.1 hf)
    subst this
    simp [parseMainF_nil]
  | succ f ih =>
    intro g L hf hg
    cases L with
    | nil => simp [parseMainF_nil]
    | cons l ls =>
      cases g with
      | zero => simp at hg
      | succ g =>
        have hf' : ls.length ≤ f := Nat.lt_succ_iff.1 hf
        have hg' : ls.length ≤ g := Nat.lt_succ_iff.1 hg
        cases hml : matchHeader l with
        | none =>
          rw [parseMainF_cons_none hml, parseMainF_cons_none hml]
          exact ih g ls hf' hg'
        | some v =>
          obtain ⟨ts, sp⟩ := v
          rw [parseMainF_cons_some hml, parseMainF_cons_some hml]
          have hlen : ((ls.dropWhile keepLine).dropWhile isBlankLine).length ≤ ls.length :=
            le_trans (length_dropWhile_le _ _) (length_dropWhile_le _ _)
          rw [ih g _ (le_trans hlen hf') (le_trans hlen hg')]

/-- The parser main loop started at an arbitrary line list (always run
with exactly enough fuel). -/
def parseM (L : List (List Char)) : List Entry := parseMainF L.length L

theorem parseM_nil : parseM [] = [] := rfl

theorem parseM_cons_none {l : List Char} {ls : List (List Char)}
    (h : matchHeader l = none) : parseM (l :: ls) = parseM ls := by
  unfold parseM
  simpa [List.length_cons] using parseMainF_cons_none (f := ls.length) h

theorem parseM_cons_some {l ts sp : List Char} {ls : List (List Char)}
    (h : matchHeader l = some (ts, sp)) :
    parseM (l :: ls) =
      (ts, sp, pyStrip (joinSpace ((ls.takeWhile keepLine).map pyStrip))) ::
        parseM ((ls.dropWhile keepLine).dropWhile isBlankLine) := by
  unfold parseM
  rw [show (l :: ls).length = ls.length + 1 from rfl, parseMainF_cons_some h]
  have hlen : ((ls.dropWhile keepLine).dropWhile isBlankLine).length ≤ ls.length :=
    le_trans (length_dropWhile_le _ _) (length_dropWhile_le _ _)
  rw [parseMainF_fuel_irrel ls.length _ _ hlen le_rfl]

theorem parseM_dropBlanks :
    ∀ L : List (List Char), parseM (L.dropWhile isBlankLine) = parseM L := by
  intro L
  induction L with
  | nil => simp
  | cons l ls ih =>
    by_cases hb : isBlankLine l
    · have hnone : matchHeader l = none :=
        matchHeader_of_blank (by simpa [isBlankLine] using hb)
      rw [List.dropWhile_cons, if_pos hb, ih, parseM_cons_none hnone]
    · rw [List.dropWhile_cons, if_neg hb]

theorem parse_transcript_eq_parseM (L : List (List Char)) :
    parse_transcript L = parseM L := by
  induction L with
  | nil => rfl
  | cons l ls ih =>
    unfold parse_transcript at ih ⊢
    cases hml : matchHeader l with
    | none =>
      rw [List.dropWhile_cons]
      simp only [hml, Option.isNone_none, if_true]
      have hlen : (ls.dropWhile fun l => (matchHeader l).isNone).length ≤ ls.length :=
        length_dropWhile_le _ _
      rw [show (l :: ls).length = ls.length + 1 from rfl,
        parseMainF_fuel_irrel (ls.length + 1) ls.length _
          (le_trans hlen (Nat.le_succ _)) hlen, ih, parseM_cons_none hml]
    | some v =>
      rw [List.dropWhile_cons]
      simp only [hml, Option.isNone_some, if_false]
      rfl

/-! ### Order preservation (claim C4) -/

theorem parseMainF_map_headers :
    ∀ (f : Nat) (L : List (List Char)), L.length ≤ f →
      (parseMainF f L).map (fun e => (e.1, e.2.1)) = L.filterMap matchHeader := by
  intro f
  induction f with
  | zero =>
    intro L hf
    have : L = [] := List.length_eq_zero.1 (Nat.le_zero.1 hf)
    subst this; simp [parseMainF_nil]
  | succ f ih =>
    intro L hf
    cases L with
    | nil => simp [parseMainF_nil]
    | cons l ls =>
      have hf' : ls.length ≤ f := Nat.lt_succ_iff.1 hf
      cases hml : matchHeader l with
      | none =>
        rw [parseMainF_cons_none hml, List.filterMap_cons_none hml]
        exact ih ls hf'
      | some v =>
        obtain ⟨ts, sp⟩ := v
        rw [parseMainF_cons_some hml, List.filterMap_cons_some hml]
        have h1 : ls.filterMap matchHeader =
            (ls.dropWhile keepLine).filterMap matchHeader := by
          conv_lhs => rw [← List.takeWhile_append_dropWhile (p := keepLine) (l := ls)]
          rw [List.filterMap_append]
          have : (ls.takeWhile keepLine).filterMap matchHeader = [] :=
            List.filterMap_eq_nil_iff.2 (fun a ha => by
              have := List.mem_takeWhile_imp ha
              simp [keepLine] at this
              simpa using this.2)
          simp [this]
        have h2 : (ls.dropWhile keepLine).filterMap matchHeader =
            ((ls.dropWhile keepLine).dropWhile isBlankLine).filterMap matchHeader := by
          conv_lhs => rw [← List.takeWhile_append_dropWhile (p := isBlankLine)
            (l := ls.dropWhile keepLine)]
          rw [List.filterMap_append]
          have : ((ls.dropWhile keepLine).takeWhile isBlankLine).filterMap matchHeader = [] :=
            List.filterMap_eq_nil_iff.2 (fun a ha => by
              have := List.mem_takeWhile_imp ha
              exact matchHeader_of_blank (by simpa [isBlankLine] using this))
          simp [this]
        have hlen : ((ls.dropWhile keepLine).dropWhile isBlankLine).length ≤ f :=
          le_trans (le_trans (length_dropWhile_le _ _) (length_dropWhile_le _ _)) hf'
        rw [List.map_cons, ih _ hlen, h1, h2]

/-- C4 Order preservation: `parse_transcript` emits exactly one
utterance per header line at or after the first one, carrying that
header's captured timestamp and speaker, in the order the header lines
appear in the input — no reordering and no deduplication (identical
headers each yield their own entry, since `filterMap` keeps
duplicates). -/
theorem parse_transcript_order_preservation (lines : List (List Char)) :
    (parse_transcript lines).map (fun e => (e.1, e.2.1)) =
      lines.filterMap matchHeader := by
  rw [parse_transcript_eq_parseM]
  exact parseMainF_map_headers lines.length lines le_rfl

/-! ### Empty result and fatal error (claim C5) -/

/-- C5 A line sequence with no header line parses to the empty entry
list, `create_docx_from_transcript` fails with the `ValueError` message
before building any document, and `main` then exits with code 1. -/
theorem no_headers_empty_parse_and_error
    (lines : List (List Char)) (baseName : List Char)
    (meta : Option (List Char))
    (h : ∀ l ∈ lines, matchHeader l = none) :
    parse_transcript lines = [] ∧
    create_docx_from_transcript lines baseName meta =
      Except.error "No transcript entries were parsed from the .txt file.".toList ∧
    formatterExitCode lines baseName meta = 1 := by
  have hp : parse_transcript lines = [] := by
    unfold parse_transcript
    have hd : lines.dropWhile (fun l => (matchHeader l).isNone) = [] :=
      List.dropWhile_eq_nil_iff.2 (fun x hx => by simp [h x hx])
    rw [hd, parseMainF_nil]
  exact ⟨hp, by simp [create_docx_from_transcript, hp],
    by simp [formatterExitCode, create_docx_from_transcript, hp]⟩

/-- Witness for C5 at a concrete input with no header lines. -/
theorem no_headers_empty_parse_and_error_witness :
    parse_transcript ["TRANSCRIPT: call1.m4a".toList, "hello".toList] = [] ∧
    create_docx_from_transcript ["TRANSCRIPT: call1.m4a".toList, "hello".toList]
        "t.txt".toList none =
      Except.error "No transcript entries were parsed from the .txt file.".toList ∧
    formatterExitCode ["TRANSCRIPT: call1.m4a".toList, "hello".toList]
        "t.txt".toList none = 1 :=
  no_headers_empty_parse_and_error _ _ _ (by decide)

/-! ### The block equation of the parser (claims C9, C10) -/

theorem takeWhile_keep_stop {B R : List (List Char)}
    (hB : ∀ b ∈ B, isBlankLine b = true)
    (hR : R = [] ∨ ∃ r R', R = r :: R' ∧ (matchHeader r).isSome = true) :
    (B ++ R).takeWhile keepLine = [] := by
  cases B with
  | cons b B' =>
    have : keepLine b = false :=
      keepLine_of_blank (by simpa [isBlankLine] using hB b (by simp))
    simp [List.takeWhile_cons, this]
  | nil =>
    rcases hR with rfl | ⟨r, R', rfl, hr⟩
    · simp
    · obtain ⟨v, hv⟩ := Option.isSome_iff_exists.1 hr
      simp [List.takeWhile_cons, keepLine_of_header hv]

theorem dropWhile_keep_stop {B R : List (List Char)}
    (hB : ∀ b ∈ B, isBlankLine b = true)
    (hR : R = [] ∨ ∃ r R', R = r :: R' ∧ (matchHeader r).isSome = true) :
    (B ++ R).dropWhile keepLine = B ++ R := by
  cases B with
  | cons b B' =>
    have : keepLine b = false :=
      keepLine_of_blank (by simpa [isBlankLine] using hB b (by simp))
    simp [List.dropWhile_cons, this]
  | nil =>
    rcases hR with rfl | ⟨r, R', rfl, hr⟩
    · simp
    · obtain ⟨v, hv⟩ := Option.isSome_iff_exists.1 hr
      simp [List.dropWhile_cons, keepLine_of_header hv]

theorem dropWhile_blank_stop {R : List (List Char)}
    (hR : R = [] ∨ ∃ r R', R = r :: R' ∧ (matchHeader r).isSome = true) :
    R.dropWhile isBlankLine = R := by
  rcases hR with rfl | ⟨r, R', rfl, hr⟩
  · simp
  · obtain ⟨v, hv⟩ := Option.isSome_iff_exists.1 hr
    simp [List.dropWhile_cons, isBlankLine_false_of_header hv]

/-- One full iteration of the parser's outer loop, at the head of the
input: a header line, then the collected text lines `T`, then a blank
separator `B`, then the rest `R` (empty or starting with the next
header). -/
theorem parseM_block {l ts sp : List Char} {T B R : List (List Char)}
    (hl : matchHeader l = some (ts, sp))
    (hT : ∀ t ∈ T, keepLine t = true)
    (hB : ∀ b ∈ B, isBlankLine b = true)
    (hR : R = [] ∨ ∃ r R', R = r :: R' ∧ (matchHeader r).isSome = true) :
    parseM (l :: (T ++ (B ++ R))) =
      (ts, sp, pyStrip (joinSpace (T.map pyStrip))) :: parseM R := by
  rw [parseM_cons_some hl]
  rw [takeWhile_all_append (B ++ R) hT, takeWhile_keep_stop hB hR,
    dropWhile_all_append (B ++ R) hT, dropWhile_keep_stop hB hR,
    dropWhile_all_append R hB, dropWhile_blank_stop hR]
  simp

/-- C9 Utterance text construction: after a header line, the parser
accumulates exactly the immediately following non-blank non-header
lines `T`, strips each and joins them with single spaces; the
accumulation stops at a blank line or at the next header line; all
consecutive blank lines `B` are then consumed before scanning resumes
at `R` (which is empty or starts with the next header line). -/
theorem parse_transcript_text_construction
    {l ts sp : List Char} {T B R : List (List Char)}
    (hl : matchHeader l = some (ts, sp))
    (hT : ∀ t ∈ T, pyStrip t ≠ [] ∧ matchHeader t = none)
    (hB : ∀ b ∈ B, pyStrip b = [])
    (hR : R = [] ∨ ∃ r R', R = r :: R' ∧ (matchHeader r).isSome = true) :
    parse_transcript (l :: (T ++ (B ++ R))) =
      (ts, sp, pyStrip (joinSpace (T.map pyStrip))) :: parse_transcript R := by
  rw [parse_transcript_eq_parseM, parse_transcript_eq_parseM]
  refine parseM_block hl (fun t ht => ?_) (fun b hb => by
    simp [isBlankLine, hB b hb]) hR
  have h1 := (hT t ht).1
  have h2 := (hT t ht).2
  cases hpt : pyStrip t with
  | nil => exact absurd hpt h1
  | cons c cs => simp [keepLine, hpt, h2]

/-- Witness for C9: two text lines, two blank separator lines, a next
header line. -/
theorem parse_transcript_text_construction_witness :
    parse_transcript ("[0:00:05] Speaker A:".toList ::
        (["  hello ".toList, "world".toList] ++
          (["".toList, "  ".toList] ++ ["[0:00:09] Speaker B:".toList]))) =
      ("0:00:05".toList, "Speaker A".toList,
        pyStrip (joinSpace ([" hello ".toList, "world".toList].map pyStrip))) ::
        parse_transcript ["[0:00:09] Speaker B:".toList] := by
  have h := parse_transcript_text_construction
    (T := ["  hello ".toList, "world".toList])
    (B := ["".toList, "  ".toList])
    (R := ["[0:00:09] Speaker B:".toList])
    (show matchHeader "[0:00:05] Speaker A:".toList =
      some ("0:00:05".toList, "Speaker A".toList) by decide)
    (by decide) (by decide)
    (Or.inr ⟨_, _, rfl, by decide⟩)
  exact h.trans (by decide)

/-! ### A trailing header yields an empty-text utterance (claim C6) -/

theorem parseMainF_last_header {l ts sp : List Char} {B : List (List Char)}
    (hl : matchHeader l = some (ts, sp))
    (hB : ∀ b ∈ B, isBlankLine b = true) :
    ∀ (f : Nat) (L : List (List Char)), (L ++ l :: B).length ≤ f →
      ∃ E, parseMainF f (L ++ l :: B) = E ++ [(ts, sp, [])] := by
  intro f
  induction f with
  | zero => intro L hf; simp [Nat.le_zero] at hf
  | succ f ih =>
    intro L hf
    cases L with
    | nil =>
      rw [List.nil_append, parseMainF_cons_some hl]
      have h1 : B.takeWhile keepLine = [] := by
        have := takeWhile_keep_stop (B := B) (R := []) hB (Or.inl rfl)
        simpa using this
      have h2 : B.dropWhile keepLine = B := by
        have := dropWhile_keep_stop (B := B) (R := []) hB (Or.inl rfl)
        simpa using this
      have h3 : B.dropWhile isBlankLine = [] :=
        List.dropWhile_eq_nil_iff.2 (fun b hb => hB b hb)
      rw [h1, h2, h3, parseMainF_nil]
      exact ⟨[], by simp [joinSpace, pyStrip]⟩
    | cons x xs =>
      have hf' : (xs ++ l :: B).length ≤ f := by
        simpa [List.length_cons, Nat.succ_le_succ_iff] using hf
      rw [List.cons_append]
      cases hmx : matchHeader x with
      | none =>
        rw [parseMainF_cons_none hmx]
        exact ih xs hf'
      | some v =>
        obtain ⟨ts', sp'⟩ := v
        rw [parseMainF_cons_some hmx]
        have hkl : keepLine l = false := keepLine_of_header hl
        have hbl : isBlankLine l = false := isBlankLine_false_of_header hl
        rw [dropWhile_append_cons_of_neg _ _ hkl,
          dropWhile_append_cons_of_neg _ _ hbl]
        have hlen : (((xs.dropWhile keepLine).dropWhile isBlankLine) ++ l :: B).length ≤ f := by
          have hx : ((xs.dropWhile keepLine).dropWhile isBlankLine).length ≤ xs.length :=
            le_trans (length_dropWhile_le _ _) (length_dropWhile_le _ _)
          calc (((xs.dropWhile keepLine).dropWhile isBlankLine) ++ l :: B).length
              = ((xs.dropWhile keepLine).dropWhile isBlankLine).length + (l :: B).length := by
                simp
            _ ≤ xs.length + (l :: B).length := Nat.add_le_add_right hx _
            _ = (xs ++ l :: B).length := by simp
            _ ≤ f := hf'
        obtain ⟨E', hE'⟩ := ih _ hlen
        exact ⟨(ts', sp',
            pyStrip (joinSpace (((xs ++ l :: B).takeWhile keepLine).map pyStrip))) :: E',
          by rw [hE', List.cons_append]⟩

/-- C6 A header line that is followed only by blank lines up to the end
of the input (in particular, a header as the very last line) yields a
final utterance with that header's timestamp and speaker and empty
text — it is emitted, not dropped.  A file consisting of exactly one
header line parses to exactly one utterance with empty text. -/
theorem trailing_header_empty_text (l ts sp : List Char)
    (h : matchHeader l = some (ts, sp)) :
    (∀ (L B : List (List Char)), (∀ b ∈ B, isBlankLine b = true) →
      (parse_transcript (L ++ l :: B)).getLast? = some (ts, sp, [])) ∧
    parse_transcript [l] = [(ts, sp, [])] := by
  constructor
  · intro L B hB
    rw [parse_transcript_eq_parseM]
    obtain ⟨E, hE⟩ := parseMainF_last_header h hB (L ++ l :: B).length L le_rfl
    rw [parseM, hE, List.getLast?_concat]
  · rw [parse_transcript_eq_parseM, parseM_cons_some h]
    simp [parseM_nil, joinSpace, pyStrip]

/-- Witness for C6 at concrete inputs. -/
theorem trailing_header_empty_text_witness :
    (parse_transcript (["junk".toList, "[0:00:05] Speaker A:".toList,
        "hi".toList] ++ "[0:00:09] Speaker B:".toList ::
          ["".toList, " ".toList])).getLast? =
      some ("0:00:09".toList, "Speaker B".toList, []) ∧
    parse_transcript ["[0:00:05] Speaker A:".toList] =
      [("0:00:05".toList, "Speaker A".toList, [])] :=
  ⟨(trailing_header_empty_text _ _ _ (by decide)).1
      ["junk".toList, "[0:00:05] Speaker A:".toList, "hi".toList]
      ["".toList, " ".toList] (by decide),
    (trailing_header_empty_text _ _ _ (by decide)).2⟩

/-! ### The parser inspects lines only through `matchHeader` and
`pyStrip` (claim C10) -/

/-- Two lines the parser cannot distinguish: same header-match result
and same stripped content. -/
def lineEquiv (a b : List Char) : Prop :=
  matchHeader a = matchHeader b ∧ pyStrip a = pyStrip b

theorem lineEquiv_keepLine {a b : List Char} (h : lineEquiv a b) :
    keepLine a = keepLine b := by
  simp [keepLine, h.1, h.2]

theorem lineEquiv_isBlankLine {a b : List Char} (h : lineEquiv a b) :
    isBlankLine a = isBlankLine b := by
  simp [isBlankLine, h.2]

theorem forall2_takeWhile_keep_map :
    ∀ {L₁ L₂ : List (List Char)}, List.Forall₂ lineEquiv L₁ L₂ →
      (L₁.takeWhile keepLine).map pyStrip = (L₂.takeWhile keepLine).map pyStrip := by
  intro L₁ L₂ h
  induction h with
  | nil => rfl
  | @cons a b l₁ l₂ hab h ih =>
    rw [List.takeWhile_cons, List.takeWhile_cons, ← lineEquiv_keepLine hab]
    by_cases hk : keepLine a
    · rw [if_pos hk, if_pos hk, List.map_cons, List.map_cons, hab.2, ih]
    · rw [if_neg hk, if_neg hk]

theorem forall2_dropWhile {p : List Char → Bool}
    (hp : ∀ {a b : List Char}, lineEquiv a b → p a = p b) :
    ∀ {L₁ L₂ : List (List Char)}, List.Forall₂ lineEquiv L₁ L₂ →
      List.Forall₂ lineEquiv (L₁.dropWhile p) (L₂.dropWhile p) := by
  intro L₁ L₂ h
  induction h with
  | nil => exact List.Forall₂.nil
  | @cons a b l₁ l₂ hab h ih =>
    rw [List.dropWhile_cons, List.dropWhile_cons, ← hp hab]
    by_cases hk : p a
    · rw [if_pos hk, if_pos hk]; exact ih
    · rw [if_neg hk, if_neg hk]; exact List.Forall₂.cons hab h

theorem parseMainF_congr :
    ∀ (f : Nat) (L₁ L₂ : List (List Char)), L₁.length ≤ f →
      List.Forall₂ lineEquiv L₁ L₂ → parseMainF f L₁ = parseMainF f L₂ := by
  intro f
  induction f with
  | zero =>
    intro L₁ L₂ hf h
    have h1 : L₁ = [] := List.length_eq_zero.1 (Nat.le_zero.1 hf)
    subst h1
    have h2 : L₂ = [] := List.forall₂_nil_left_iff.1 h
    subst h2; rfl
  | succ f ih =>
    intro L₁ L₂ hf h
    cases h with
    | nil => rfl
    | @cons a b l₁ l₂ hab h =>
      have hf' : l₁.length ≤ f := Nat.lt_succ_iff.1 hf
      cases hmb : matchHeader a with
      | none =>
        rw [parseMainF_cons_none hmb, parseMainF_cons_none (hab.1 ▸ hmb)]
        exact ih l₁ l₂ hf' h
      | some v =>
        obtain ⟨ts, sp⟩ := v
        rw [parseMainF_cons_some hmb, parseMainF_cons_some (hab.1 ▸ hmb)]
        rw [forall2_takeWhile_keep_map h]
        have hrec := forall2_dropWhile (fun hab => lineEquiv_isBlankLine hab)
          (forall2_dropWhile (fun hab => lineEquiv_keepLine hab) h)
        have hlen : ((l₁.dropWhile keepLine).dropWhile isBlankLine).length ≤ f :=
          le_trans (le_trans (length_dropWhile_le _ _) (length_dropWhile_le _ _)) hf'
        rw [ih _ _ hlen hrec]

theorem parse_transcript_congr {L₁ L₂ : List (List Char)}
    (h : List.Forall₂ lineEquiv L₁ L₂) :
    parse_transcript L₁ = parse_transcript L₂ := by
  rw [parse_transcript_eq_parseM, parse_transcript_eq_parseM, parseM, parseM,
    parseMainF_congr L₁.length L₁ L₂ le_rfl h,
    parseMainF_fuel_irrel L₁.length L₂.length L₂ (h.length_eq ▸ le_rfl) le_rfl]

/-- C10 A line consisting only of whitespace characters behaves exactly
like an empty line for the parser (it is blank — hence terminates the
current utterance and is consumed as part of the blank separator — and
never matches the header pattern), and the header pattern also accepts
multiple whitespace characters after `]` and trailing whitespace after
the colon, not only the exact single-space form. -/
theorem whitespace_line_and_lenient_header :
    (∀ l : List Char, l.all isWs = true →
      isBlankLine l = true ∧ matchHeader l = none) ∧
    (∀ (X Y : List (List Char)) (w : List Char), w.all isWs = true →
      parse_transcript (X ++ w :: Y) = parse_transcript (X ++ [] :: Y)) ∧
    matchHeader "[0:00:05]   Speaker A: \t ".toList =
      some ("0:00:05".toList, "Speaker A".toList) := by
  have hblank : ∀ l : List Char, l.all isWs = true → pyStrip l = [] :=
    fun l hl => pyStrip_eq_nil_iff.2 hl
  refine ⟨fun l hl => ?_, fun X Y w hw => ?_, by decide⟩
  · exact ⟨by simp [isBlankLine, hblank l hl], matchHeader_of_blank (hblank l hl)⟩
  · refine parse_transcript_congr (List.rel_append ?_ ?_)
    · exact List.forall₂_same.2 (fun x _ => ⟨rfl, rfl⟩)
    · refine List.Forall₂.cons ⟨?_, ?_⟩ (List.forall₂_same.2 (fun x _ => ⟨rfl, rfl⟩))
      · rw [matchHeader_of_blank (hblank w hw)]; rfl
      · rw [hblank w hw]; rfl

/-- Witness for C10 at concrete inputs: a tab-space line is blank and
header-free, and inserting it behaves like inserting an empty line. -/
theorem whitespace_line_and_lenient_header_witness :
    (isBlankLine " \t ".toList = true ∧ matchHeader " \t ".toList = none) ∧
    parse_transcript (["[0:00:05] Speaker A:".toList, "hi".toList] ++
        " \t ".toList :: ["more".toList]) =
      parse_transcript (["[0:00:05] Speaker A:".toList, "hi".toList] ++
        [] :: ["more".toList]) :=
  ⟨whitespace_line_and_lenient_header.1 _ (by decide),
    whitespace_line_and_lenient_header.2.1 _ _ _ (by decide)⟩

/-! ### The shape of `format_timestamp` output (claim C3) -/

/-- The timestamp sub-pattern of the header regex,
`\d{1,2}:\d{2}:\d{2}` as a full match. -/
def isTimestampShape (l : List Char) : Bool :=
  let ds := l.takeWhile Char.isDigit
  match l.dropWhile Char.isDigit with
  | ':' :: a :: b :: ':' :: c :: d :: [] =>
    decide (1 ≤ ds.length) && decide (ds.length ≤ 2) &&
      a.isDigit && b.isDigit && c.isDigit && d.isDigit
  | _ => false

theorem natDigitsAux_small {n : Nat} (f : Nat) (h : n < 10) :
    natDigitsAux (f + 1) n = [Nat.digitChar n] := by
  simp [natDigitsAux, h]

theorem natDigits_small {n : Nat} (h : n < 10) :
    natDigits n = [Nat.digitChar n] :=
  natDigitsAux_small n h

theorem natDigits_two {n : Nat} (h1 : 10 ≤ n) (h2 : n < 100) :
    natDigits n = [Nat.digitChar (n / 10), Nat.digitChar (n % 10)] := by
  have hn : ¬ n < 10 := by omega
  have hd : n / 10 < 10 := by omega
  obtain ⟨f, rfl⟩ : ∃ f, n = f + 1 := ⟨n - 1, by omega⟩
  show natDigitsAux (f + 1 + 1) (f + 1) = _
  rw [show natDigitsAux (f + 1 + 1) (f + 1) =
      natDigitsAux (f + 1) ((f + 1) / 10) ++ [Nat.digitChar ((f + 1) % 10)] by
    simp [natDigitsAux, hn]]
  rw [natDigitsAux_small f hd]
  rfl

theorem digitChar_isDigit {n : Nat} (h : n < 10) :
    (Nat.digitChar n).isDigit = true := by
  interval_cases n <;> decide

/-- Shape of `pad2` below 100: always exactly two digit characters. -/
theorem pad2_shape {n : Nat} (h : n < 100) :
    ∃ x y, pad2 n = [x, y] ∧ x.isDigit = true ∧ y.isDigit = true := by
  by_cases h10 : n < 10
  · exact ⟨'0', Nat.digitChar n, by simp [pad2, h10, natDigits_small h10],
      by decide, digitChar_isDigit h10⟩
  · refine ⟨Nat.digitChar (n / 10), Nat.digitChar (n % 10), ?_, ?_, ?_⟩
    · simp [pad2, h10, natDigits_two (by omega) h]
    · exact digitChar_isDigit (by omega)
    · exact digitChar_isDigit (by omega)

/-- Below one day, `format_timestamp` output decomposes as
`H:MM:SS` with one or two hour digits. -/
theorem format_timestamp_decomp {ms : Nat} (h : ms < 86400000) :
    ∃ ds a b c d, format_timestamp ms = ds ++ ':' :: a :: b :: ':' :: c :: d :: [] ∧
      ds ≠ [] ∧ ds.length ≤ 2 ∧ (∀ x ∈ ds, Char.isDigit x = true) ∧
      a.isDigit = true ∧ b.isDigit = true ∧ c.isDigit = true ∧ d.isDigit = true := by
  have hs : ms / 1000 < 86400 := by omega
  have hd0 : ms / 1000 / 86400 = 0 := Nat.div_eq_of_lt hs
  have hr : ms / 1000 % 86400 = ms / 1000 := Nat.mod_eq_of_lt hs
  have hh : ms / 1000 / 3600 < 24 := by omega
  have hm : ms / 1000 % 3600 / 60 < 60 := by omega
  have hsec : ms / 1000 % 60 < 60 := by omega
  obtain ⟨a, b, hab, ha, hb⟩ := pad2_shape (n := ms / 1000 % 3600 / 60) (by omega)
  obtain ⟨c, d, hcd, hc, hd⟩ := pad2_shape (n := ms / 1000 % 60) (by omega)
  have hout : format_timestamp ms =
      natDigits (ms / 1000 / 3600) ++ ':' :: a :: b :: ':' :: c :: d :: [] := by
    unfold format_timestamp
    simp only [hr, hd0, if_pos rfl, hab, hcd]
    simp
  refine ⟨natDigits (ms / 1000 / 3600), a, b, c, d, hout, ?_, ?_, ?_, ha, hb, hc, hd⟩
  · by_cases h10 : ms / 1000 / 3600 < 10
    · simp [natDigits_small h10]
    · simp [natDigits_two (n := ms / 1000 / 3600) (by omega) (by omega)]
  · by_cases h10 : ms / 1000 / 3600 < 10
    · simp [natDigits_small h10]
    · simp [natDigits_two (n := ms / 1000 / 3600) (by omega) (by omega)]
  · intro x hx
    by_cases h10 : ms / 1000 / 3600 < 10
    · rw [natDigits_small h10] at hx
      simp at hx
      exact hx ▸ digitChar_isDigit h10
    · rw [natDigits_two (n := ms / 1000 / 3600) (by omega) (by omega)] at hx
      rcases List.mem_pair.1 hx with rfl | rfl
      · exact digitChar_isDigit (by omega)
      · exact digitChar_isDigit (by omega)

theorem isTimestampShape_of_decomp {ds : List Char} {a b c d : Char}
    (hne : ds ≠ []) (hlen : ds.length ≤ 2)
    (hds : ∀ x ∈ ds, Char.isDigit x = true)
    (ha : a.isDigit = true) (hb : b.isDigit = true)
    (hc : c.isDigit = true) (hd : d.isDigit = true) :
    isTimestampShape (ds ++ ':' :: a :: b :: ':' :: c :: d :: []) = true := by
  have hcol : (':' : Char).isDigit = false := by decide
  have htw : (ds ++ ':' :: a :: b :: ':' :: c :: d :: []).takeWhile Char.isDigit = ds := by
    rw [takeWhile_all_append _ hds, List.takeWhile_cons, hcol]
    simp
  have hdw : (ds ++ ':' :: a :: b :: ':' :: c :: d :: []).dropWhile Char.isDigit =
      ':' :: a :: b :: ':' :: c :: d :: [] := by
    rw [dropWhile_all_append _ hds, List.dropWhile_cons, hcol]
    simp
  have h1 : 1 ≤ ds.length := by
    cases ds with
    | nil => exact absurd rfl hne
    | cons x xs => simp
  simp [isTimestampShape, htw, hdw, h1, hlen, ha, hb, hc, hd]

/-- C3 counterexample: at one day (86,400,000 ms) the code produces
`"1 day, 0:00:00"` — a day component appears and the result is not an
`H:MM:SS`-style string, contradicting the claim that hours simply
exceed 24 with no calendar-style day component. -/
theorem format_timestamp_day_counterexample :
    format_timestamp 86400000 = "1 day, 0:00:00".toList ∧
    isTimestampShape (format_timestamp 86400000) = false := by decide

/-- C3 (amended) For every millisecond count below one day
(86,400,000), `format_timestamp` returns a `\d{1,2}:\d{2}:\d{2}`
duration string: unpadded hours (one or two digits, hence at most 23),
zero-padded minutes and seconds.  At or above one day, Python's
`timedelta` formatting instead prepends a `D day(s), ` component. -/
theorem format_timestamp_hmmss_below_day (ms : Nat) (h : ms < 86400000) :
    isTimestampShape (format_timestamp ms) = true := by
  obtain ⟨ds, a, b, c, d, hout, hne, hlen, hds, ha, hb, hc, hd⟩ :=
    format_timestamp_decomp h
  rw [hout]
  exact isTimestampShape_of_decomp hne hlen hds ha hb hc hd

/-- Witness for the amended C3 at ten hours. -/
theorem format_timestamp_hmmss_below_day_witness :
    36000000 < 86400000 ∧ isTimestampShape (format_timestamp 36000000) = true :=
  ⟨by decide, format_timestamp_hmmss_below_day 36000000 (by decide)⟩

/-! ### Rendering structure and speaker colors (claims C7, C8) -/

theorem renderEntries_cons_found {colors : List (List Char × (Nat × Nat × Nat))}
    {ts sp tx : List Char} {c : Nat × Nat × Nat} {rest : List Entry}
    (h : colors.lookup sp = some c) :
    renderEntries colors ((ts, sp, tx) :: rest) =
      headingPara ts sp c ::
        ((if tx = [] then [] else [textPara tx c]) ++
          (spacerPara :: renderEntries colors rest)) := by
  simp [renderEntries, h]

theorem renderEntries_cons_new {colors : List (List Char × (Nat × Nat × Nat))}
    {ts sp tx : List Char} {rest : List Entry}
    (h : colors.lookup sp = none) :
    renderEntries colors ((ts, sp, tx) :: rest) =
      headingPara ts sp (paletteAt colors.length) ::
        ((if tx = [] then [] else [textPara tx (paletteAt colors.length)]) ++
          (spacerPara ::
            renderEntries (colors ++ [(sp, paletteAt colors.length)]) rest)) := by
  simp [renderEntries, h]

/-- The per-utterance block the claim describes (amended form: the text
paragraph is present only for non-empty text). -/
def blockSpec (e : Entry) (c : Nat × Nat × Nat) : List DocPara :=
  headingPara e.1 e.2.1 c ::
    ((if e.2.2 = [] then [] else [textPara e.2.2 c]) ++ [spacerPara])

/-- C7 counterexample: an utterance with empty text renders to exactly
two paragraphs — the bold heading and the blank spacer — with no
`Normal`-styled text paragraph in between, while the claim demands a
text paragraph for empty-text utterances as well (three paragraphs). -/
theorem render_empty_text_counterexample :
    (renderEntries [] [("0:00:05".toList, "Speaker A".toList, [])]).length = 2 ∧
    ∀ p ∈ renderEntries [] [("0:00:05".toList, "Speaker A".toList, [])],
      p.styleName ≠ some "Normal".toList := by decide

theorem renderEntries_blockSpec :
    ∀ (entries : List Entry) (colors : List (List Char × (Nat × Nat × Nat))),
      ∃ cs : List (Nat × Nat × Nat), cs.length = entries.length ∧
        renderEntries colors entries =
          (entries.zip cs).flatMap (fun ec => blockSpec ec.1 ec.2) := by
  intro entries
  induction entries with
  | nil => exact fun _ => ⟨[], rfl, rfl⟩
  | cons e rest ih =>
    intro colors
    obtain ⟨ts, sp, tx⟩ := e
    cases hlu : colors.lookup sp with
    | some c =>
      obtain ⟨cs, hlen, hcs⟩ := ih colors
      refine ⟨c :: cs, by simp [hlen], ?_⟩
      rw [renderEntries_cons_found hlu, hcs]
      simp [blockSpec, List.zip_cons_cons]
    | none =>
      obtain ⟨cs, hlen, hcs⟩ := ih (colors ++ [(sp, paletteAt colors.length)])
      refine ⟨paletteAt colors.length :: cs, by simp [hlen], ?_⟩
      rw [renderEntries_cons_new hlu, hcs]
      simp [blockSpec, List.zip_cons_cons]

/-- C7 (amended) For every non-empty utterance sequence, the rendered
document is the fixed preamble followed, for each utterance in order,
by one block: a bold heading paragraph `[<timestamp>] <speaker>` in the
speaker's assigned color, then — only when the utterance text is
non-empty — a plain-text `Normal` paragraph of the text in the same
color, then a blank spacer paragraph; for empty-text utterances the
text paragraph is omitted. -/
theorem render_document_block_structure (baseName : List Char)
    (meta : Option (List Char)) (entries : List Entry)
    (h : entries ≠ []) :
    ∃ cs : List (Nat × Nat × Nat), cs.length = entries.length ∧
      preambleParas baseName meta ++ renderEntries [] entries =
        preambleParas baseName meta ++
          (entries.zip cs).flatMap (fun ec => blockSpec ec.1 ec.2) := by
  obtain ⟨cs, hlen, hcs⟩ := renderEntries_blockSpec entries []
  exact ⟨cs, hlen, by rw [hcs]⟩

/-- Witness for the amended C7 (two utterances, the second with empty
text). -/
theorem render_document_block_structure_witness :
    ∃ cs : List (Nat × Nat × Nat),
      cs.length = ([("0:00:05".toList, "Speaker A".toList, "Hi.".toList),
        ("0:00:09".toList, "Speaker B".toList, [])] : List Entry).length ∧
      preambleParas "t.txt".toList none ++
          renderEntries [] [("0:00:05".toList, "Speaker A".toList, "Hi.".toList),
            ("0:00:09".toList, "Speaker B".toList, [])] =
        preambleParas "t.txt".toList none ++
          (([("0:00:05".toList, "Speaker A".toList, "Hi.".toList),
            ("0:00:09".toList, "Speaker B".toList, [])] : List Entry).zip cs).flatMap
            (fun ec => blockSpec ec.1 ec.2) :=
  render_document_block_structure "t.txt".toList none _ (by decide)

/-! #### Speaker color assignment (claim C8) -/

/-- First-seen deduplication of a list of speaker labels, with an
accumulator of labels already seen (in order). -/
def firstSeenAux (acc : List (List Char)) : List (List Char) → List (List Char)
  | [] => acc
  | x :: xs => if x ∈ acc then firstSeenAux acc xs else firstSeenAux (acc ++ [x]) xs

/-- The distinct speaker labels of a list, in first-seen order. -/
def firstSeen (l : List (List Char)) : List (List Char) := firstSeenAux [] l

/-- Index of the first occurrence of `s` (length of the list when
absent). -/
def posIn : List (List Char) → List Char → Nat
  | [], _ => 0
  | x :: xs, s => if x = s then 0 else posIn xs s + 1

/-- The colors of the heading paragraphs of a paragraph list, in order:
exactly the single-run bold paragraphs are headings (text runs are not
bold, spacer and preamble paragraphs have zero or two runs or non-bold
single runs). -/
def headingColors (ps : List DocPara) : List (Option (Nat × Nat × Nat)) :=
  ps.filterMap (fun p => match p.runs with
    | [r] => if r.bold then some r.color else none
    | _ => none)

/-- The canonical color table after the distinct speakers `D` have been
assigned colors, starting at palette index `i`. -/
def colorsFrom (i : Nat) : List (List Char) → List (List Char × (Nat × Nat × Nat))
  | [] => []
  | s :: ss => (s, paletteAt i) :: colorsFrom (i + 1) ss

theorem colorsFrom_append (i : Nat) (A B : List (List Char)) :
    colorsFrom i (A ++ B) = colorsFrom i A ++ colorsFrom (i + A.length) B := by
  induction A generalizing i with
  | nil => simp [colorsFrom]
  | cons x xs ih =>
    have h1 : i + 1 + xs.length = i + (xs.length + 1) := by omega
    simp only [List.cons_append, colorsFrom, List.append_eq, List.length_cons,
      ← h1, ih (i + 1)]

theorem length_colorsFrom (i : Nat) (D : List (List Char)) :
    (colorsFrom i D).length = D.length := by
  induction D generalizing i with
  | nil => rfl
  | cons x xs ih => simp [colorsFrom, ih]

theorem lookup_colorsFrom (i : Nat) (D : List (List Char)) (s : List Char) :
    (colorsFrom i D).lookup s =
      if s ∈ D then some (paletteAt (i + posIn D s)) else none := by
  induction D generalizing i with
  | nil => simp [colorsFrom]
  | cons x xs ih =>
    by_cases hx : x = s
    · subst hx
      simp [colorsFrom, List.lookup, posIn]
    · have hbeq : (s == x) = false := beq_eq_false_iff_ne.2 (fun h => hx h.symm)
      have hsx : ¬ s = x := fun h => hx h.symm
      simp only [colorsFrom, List.lookup, hbeq, ih (i + 1), posIn, if_neg hx,
        List.mem_cons]
      by_cases hmem : s ∈ xs
      · have h2 : i + 1 + posIn xs s = i + (posIn xs s + 1) := by omega
        simp [hmem, hsx, h2]
      · simp [hmem, hsx]

theorem firstSeenAux_decomp :
    ∀ (X : List (List Char)) (D : List (List Char)),
      ∃ E, firstSeenAux D X = D ++ E := by
  intro X
  induction X with
  | nil => exact fun D => ⟨[], by simp [firstSeenAux]⟩
  | cons x xs ih =>
    intro D
    by_cases hx : x ∈ D
    · obtain ⟨E, hE⟩ := ih D
      exact ⟨E, by simp [firstSeenAux, hx, hE]⟩
    · obtain ⟨E, hE⟩ := ih (D ++ [x])
      exact ⟨x :: E, by simp [firstSeenAux, hx, hE]⟩

theorem posIn_append_left {s : List Char} {D : List (List Char)}
    (E : List (List Char)) (h : s ∈ D) :
    posIn (D ++ E) s = posIn D s := by
  induction D with
  | nil => simp at h
  | cons x xs ih =>
    by_cases hx : x = s
    · simp [posIn, hx]
    · have : s ∈ xs := by
        rcases List.mem_cons.1 h with h1 | h1
        · exact absurd h1.symm hx
        · exact h1
      simp [posIn, hx, ih this]

theorem posIn_append_right {s : List Char} {D : List (List Char)}
    (R : List (List Char)) (h : s ∉ D) :
    posIn (D ++ R) s = D.length + posIn R s := by
  induction D with
  | nil => simp
  | cons x xs ih =>
    have hx : ¬ x = s := fun he => h (by simp [he])
    have : s ∉ xs := fun hm => h (by simp [hm])
    simp [posIn, hx, ih this]
    omega

theorem headingColors_renderEntries :
    ∀ (entries : List Entry) (D : List (List Char)),
      headingColors (renderEntries (colorsFrom 0 D) entries) =
        entries.map (fun e =>
          some (paletteAt
            (posIn (firstSeenAux D (entries.map (fun x => x.2.1))) e.2.1))) := by
  intro entries
  induction entries with
  | nil => intro D; rfl
  | cons e rest ih =>
    intro D
    obtain ⟨ts, sp, tx⟩ := e
    by_cases hmem : sp ∈ D
    · have hlu : (colorsFrom 0 D).lookup sp = some (paletteAt (posIn D sp)) := by
        rw [lookup_colorsFrom, if_pos hmem, Nat.zero_add]
      rw [renderEntries_cons_found hlu]
      obtain ⟨E, hE⟩ := firstSeenAux_decomp (rest.map (fun x => x.2.1)) D
      have hfs : firstSeenAux D (((ts, sp, tx) :: rest).map (fun x => x.2.1)) =
          firstSeenAux D (rest.map (fun x => x.2.1)) := by
        simp [firstSeenAux, hmem]
      have hpos : posIn (firstSeenAux D (rest.map (fun x => x.2.1))) sp = posIn D sp := by
        rw [hE]; exact posIn_append_left E hmem
      rw [List.map_cons, hfs, hpos]
      by_cases htx : tx = [] <;>
        simp [headingColors, htx, headingPara, textPara, spacerPara,
          ← ih D, hfs]
    · have hlu : (colorsFrom 0 D).lookup sp = none := by
        rw [lookup_colorsFrom, if_neg hmem]
      have hlen : (colorsFrom 0 D).length = D.length := length_colorsFrom 0 D
      have hcol : colorsFrom 0 D ++ [(sp, paletteAt D.length)] =
          colorsFrom 0 (D ++ [sp]) := by
        rw [colorsFrom_append, Nat.zero_add]
        rfl
      rw [renderEntries_cons_new hlu, hlen, hcol]
      obtain ⟨E, hE⟩ := firstSeenAux_decomp (rest.map (fun x => x.2.1)) (D ++ [sp])
      have hfs : firstSeenAux D (((ts, sp, tx) :: rest).map (fun x => x.2.1)) =
          firstSeenAux (D ++ [sp]) (rest.map (fun x => x.2.1)) := by
        simp [firstSeenAux, hmem]
      have hpos : posIn (firstSeenAux (D ++ [sp]) (rest.map (fun x => x.2.1))) sp =
          D.length := by
        rw [hE, List.append_assoc]
        rw [posIn_append_right _ hmem]
        simp [posIn]
      rw [List.map_cons, hfs, hpos]
      by_cases htx : tx = [] <;>
        simp [headingColors, htx, headingPara, textPara, spacerPara,
          ← ih (D ++ [sp]), hfs]

/-- C8 Speaker color assignment: in one rendering run, the heading
color of every utterance is `color_palette[k % 6]` where `k` is the
index of its speaker label in the first-seen order of the distinct
labels of the run — in particular the k-th distinct speaker gets
palette index `k mod 6`, the assignment is stable across all of that
speaker's utterances, and it is a function of the sequence of speaker
labels alone, independent of utterance text content. -/
theorem speaker_color_assignment (entries : List Entry) :
    headingColors (renderEntries [] entries) =
      entries.map (fun e =>
        some (paletteAt
          (posIn (firstSeen (entries.map (fun x => x.2.1))) e.2.1))) :=
  headingColors_renderEntries entries []

/-! ### Lines of the Writer's output (claims C1, C2) -/

theorem splitNl_ne_nil : ∀ s : List Char, splitNl s ≠ [] := by
  intro s
  cases s with
  | nil => simp [splitNl]
  | cons c rest =>
    by_cases hc : c = '\n'
    · simp [splitNl, hc]
    · simp only [splitNl, if_neg hc]
      cases splitNl rest <;> simp

theorem splitNl_no_nl : ∀ {a : List Char}, '\n' ∉ a → splitNl a = [a] := by
  intro a
  induction a with
  | nil => intro _; rfl
  | cons c cs ih =>
    intro h
    have hc : ¬ c = '\n' := fun he => h (by simp [he])
    have hcs : '\n' ∉ cs := fun hm => h (by simp [hm])
    simp [splitNl, hc, ih hcs]

theorem splitLines_nil : splitLines [] = [] := rfl

theorem splitLines_cons_nl (b : List Char) :
    splitLines ('\n' :: b) = [] :: splitLines b := by
  simp [splitLines]

theorem splitLines_append_nl : ∀ (a b : List Char),
    splitLines (a ++ '\n' :: b) = splitNl a ++ splitLines b := by
  intro a
  induction a with
  | nil => intro b; simp [splitLines, splitNl]
  | cons c cs ih =>
    intro b
    by_cases hc : c = '\n'
    · subst hc
      simp only [List.cons_append, splitLines_cons_nl, ih b, splitNl, if_pos rfl]
      rfl
    · cases hcs : splitNl cs with
      | nil => exact absurd hcs (splitNl_ne_nil cs)
      | cons l ls =>
        have h1 : splitLines (c :: (cs ++ '\n' :: b)) =
            match splitLines (cs ++ '\n' :: b) with
            | [] => [[c]]
            | l :: ls => (c :: l) :: ls := by
          simp [splitLines, hc]
        rw [List.cons_append, h1, ih b, hcs]
        simp [splitNl, hc, hcs]

/-! ### Correctness of the matcher on Writer-constructed header lines -/

/-- The characters of a written header line, without the trailing
newline: `[<ts>] <speaker>:`. -/
def hLine (ts sp : List Char) : List Char :=
  '[' :: (ts ++ (']' :: ' ' :: (sp ++ [':'])))

theorem headerChunk_append (ts sp Y : List Char) :
    headerChunk ts sp ++ Y = hLine ts sp ++ '\n' :: Y := by
  simp [headerChunk, hLine]

/-- The decomposition of a `\d{1,2}:\d{2}:\d{2}` timestamp string. -/
def tsDecomp (ts : List Char) : Prop :=
  ∃ ds a b c d, ts = ds ++ ':' :: a :: b :: ':' :: c :: d :: [] ∧
    ds ≠ [] ∧ ds.length ≤ 2 ∧ (∀ x ∈ ds, Char.isDigit x = true) ∧
    a.isDigit = true ∧ b.isDigit = true ∧ c.isDigit = true ∧ d.isDigit = true

theorem format_timestamp_tsDecomp {ms : Nat} (h : ms < 86400000) :
    tsDecomp (format_timestamp ms) := format_timestamp_decomp h

theorem isWord_not_isWs {c : Char} (h : isWord c = true) : isWs c = false := by
  cases hws : isWs c
  · rfl
  · exfalso
    simp only [isWs, Bool.or_eq_true, decide_eq_true_eq] at hws
    rcases hws with ((((rfl | rfl) | rfl) | rfl) | rfl) | rfl <;>
      simp [isWord] at h

theorem tsDecomp_no_nl {ts : List Char} (h : tsDecomp ts) : '\n' ∉ ts := by
  obtain ⟨ds, a, b, c, d, rfl, _, _, hds, ha, hb, hc, hd⟩ := h
  intro hmem
  rcases List.mem_append.1 hmem with hm | hm
  · have := hds _ hm
    simp at this
  · simp only [List.mem_cons, List.not_mem_nil] at hm
    rcases hm with h1 | h1 | h1 | h1 | h1 | h1 | h1
    · exact absurd h1 (by decide)
    · rw [← h1] at ha; simp at ha
    · rw [← h1] at hb; simp at hb
    · exact absurd h1 (by decide)
    · rw [← h1] at hc; simp at hc
    · rw [← h1] at hd; simp at hd
    · exact h1

theorem hLine_no_nl {ts w : List Char} (hts : tsDecomp ts)
    (hword : ∀ x ∈ w, isWord x = true) :
    '\n' ∉ hLine ts ("Speaker ".toList ++ w) := by
  intro hmem
  simp only [hLine] at hmem
  rcases List.mem_cons.1 hmem with h1 | h1
  · exact absurd h1 (by decide)
  rcases List.mem_append.1 h1 with h2 | h2
  · exact tsDecomp_no_nl hts h2
  rcases List.mem_cons.1 h2 with h3 | h3
  · exact absurd h3 (by decide)
  rcases List.mem_cons.1 h3 with h4 | h4
  · exact absurd h4 (by decide)
  rcases List.mem_append.1 h4 with h5 | h5
  · rcases List.mem_append.1 h5 with h6 | h6
    · have hnot : ('\n' : Char) ∉ "Speaker ".toList := by decide
      exact hnot h6
    · have := hword _ h6
      simp [isWord] at this
  · rcases List.mem_cons.1 h5 with h6 | h6
    · exact absurd h6 (by decide)
    · exact absurd h6 (List.not_mem_nil _)

theorem dropLit_single (c : Char) (X : List Char) :
    dropLit [c] (c :: X) = some X := by
  simp [dropLit]

theorem dropLit_speaker (X : List Char) :
    dropLit "Speaker".toList
      ('S' :: 'p' :: 'e' :: 'a' :: 'k' :: 'e' :: 'r' :: X) = some X := rfl

/-- The matcher accepts every header line the Writer constructs from a
well-formed timestamp and a non-empty all-word speaker identifier, and
captures exactly the timestamp and the full speaker label. -/
theorem matchHeader_hLine {ts w : List Char} (hts : tsDecomp ts)
    (hw : w ≠ []) (hword : ∀ x ∈ w, isWord x = true) :
    matchHeader (hLine ts ("Speaker ".toList ++ w)) =
      some (ts, "Speaker ".toList ++ w) := by
  obtain ⟨ds, a, b, c, d, hts_eq, hne, hlen, hds, ha, hb, hc, hd⟩ := hts
  cases w with
  | nil => exact absurd rfl hw
  | cons w0 w' =>
  have hw0 : isWs w0 = false := isWord_not_isWs (hword w0 (by simp))
  have hw0w : isWord w0 = true := hword w0 (by simp)
  have hws1 : isWs ' ' = true := by decide
  have hws2 : isWs 'S' = false := by decide
  have hdig_colon : Char.isDigit ':' = false := by decide
  have hword_colon : isWord ':' = false := by decide
  have hR : hLine ts ("Speaker ".toList ++ (w0 :: w')) =
      '[' :: (ds ++ ':' :: a :: b :: ':' :: c :: d :: ']' :: ' ' :: 'S' :: 'p' ::
        'e' :: 'a' :: 'k' :: 'e' :: 'r' :: ' ' :: w0 :: (w' ++ [':'])) := by
    simp [hLine, hts_eq]
  have htw : (ds ++ ':' :: a :: b :: ':' :: c :: d :: ']' :: ' ' :: 'S' :: 'p' ::
      'e' :: 'a' :: 'k' :: 'e' :: 'r' :: ' ' :: w0 :: (w' ++ [':'])).takeWhile
        Char.isDigit = ds := by
    rw [takeWhile_all_append _ hds, List.takeWhile_cons, hdig_colon]
    simp
  have hdw : (ds ++ ':' :: a :: b :: ':' :: c :: d :: ']' :: ' ' :: 'S' :: 'p' ::
      'e' :: 'a' :: 'k' :: 'e' :: 'r' :: ' ' :: w0 :: (w' ++ [':'])).dropWhile
        Char.isDigit = ':' :: a :: b :: ':' :: c :: d :: ']' :: ' ' :: 'S' :: 'p' ::
        'e' :: 'a' :: 'k' :: 'e' :: 'r' :: ' ' :: w0 :: (w' ++ [':']) := by
    rw [dropWhile_all_append _ hds, List.dropWhile_cons, hdig_colon]
    simp
  have hlen0 : ¬ ds.length = 0 := by
    cases ds with
    | nil => exact absurd rfl hne
    | cons x xs => simp
  have hlen2 : ¬ 2 < ds.length := Nat.not_lt.2 hlen
  have htws1 : (' ' :: 'S' :: 'p' :: 'e' :: 'a' :: 'k' :: 'e' :: 'r' :: ' ' ::
      w0 :: (w' ++ [':'])).takeWhile isWs = [' '] := by
    rw [List.takeWhile_cons, hws1]
    simp [List.takeWhile_cons, hws2]
  have hdws1 : (' ' :: 'S' :: 'p' :: 'e' :: 'a' :: 'k' :: 'e' :: 'r' :: ' ' ::
      w0 :: (w' ++ [':'])).dropWhile isWs =
      'S' :: 'p' :: 'e' :: 'a' :: 'k' :: 'e' :: 'r' :: ' ' ::
        w0 :: (w' ++ [':']) := by
    rw [List.dropWhile_cons, hws1]
    simp [List.dropWhile_cons, hws2]
  have htws2 : (' ' :: w0 :: (w' ++ [':'])).takeWhile isWs = [' '] := by
    rw [List.takeWhile_cons, hws1]
    simp [List.takeWhile_cons, hw0]
  have hdws2 : (' ' :: w0 :: (w' ++ [':'])).dropWhile isWs =
      w0 :: (w' ++ [':']) := by
    rw [List.dropWhile_cons, hws1]
    simp [List.dropWhile_cons, hw0]
  have htww : (w0 :: (w' ++ [':'])).takeWhile isWord = w0 :: w' := by
    rw [List.takeWhile_cons, hw0w]
    simp only [if_true]
    rw [takeWhile_all_append _ (fun x hx => hword x (by simp [hx])),
      List.takeWhile_cons, hword_colon]
    simp
  have hdww : (w0 :: (w' ++ [':'])).dropWhile isWord = [':'] := by
    rw [List.dropWhile_cons, hw0w]
    simp only [if_true]
    rw [dropWhile_all_append _ (fun x hx => hword x (by simp [hx])),
      List.dropWhile_cons, hword_colon]
    simp
  have hafter : afterBracket ds [a, b] [c, d]
      (' ' :: 'S' :: 'p' :: 'e' :: 'a' :: 'k' :: 'e' :: 'r' :: ' ' :: w0 ::
        (w' ++ [':'])) = some (ts, "Speaker ".toList ++ (w0 :: w')) := by
    simp only [afterBracket, htws1, hdws1, List.length_cons, List.length_nil,
      dropLit_speaker, htws2, hdws2, htww, hdww, dropLit_single]
    have h1 : ((1 : Nat) = 0) = False := by simp
    have hwcol : ([] : List Char).all isWs = true := rfl
    simp only [h1, if_false, hwcol, if_true]
    rw [if_neg (by omega : ¬ (w'.length + 1 = 0))]
    rw [hts_eq]
    rfl
  rw [hR]
  simp only [matchHeader, dropLit_single, htw, hdw]
  have hcond : (decide (ds.length = 0) || decide (2 < ds.length)) = false := by
    simp [hlen0, hlen2]
  simp only [hcond, Bool.false_eq_true, if_false]
  simp only [dropLit_single, take2Digits, ha, hb, hc, hd, Bool.and_self, if_true]
  exact hafter

/-! ### Writer equations and hypotheses for the round-trip -/

/-- An utterance text is "clean": free of carriage returns (so that the
byte-level model of writing then reading a text-mode file coincides
with splitting at `'\n'`) and, unless empty, each of its lines is
non-blank after stripping and does not itself match the header
pattern. -/
def cleanText (t : List Char) : Prop :=
  '\r' ∉ t ∧ (t = [] ∨ ∀ l ∈ splitNl t, pyStrip l ≠ [] ∧ matchHeader l = none)

/-- A provider utterance the round-trip claim quantifies over:
non-empty all-word speaker identifier (hence colon-free), start time
below one day (so the written timestamp matches the header pattern),
clean text. -/
def wfUtterance (u : ApiUtterance) : Prop :=
  u.speaker ≠ [] ∧ (∀ x ∈ u.speaker, isWord x = true) ∧
    u.start < 86400000 ∧ cleanText u.text

instance : DecidablePred cleanText := fun t => by
  unfold cleanText
  infer_instance

instance : DecidablePred wfUtterance := fun u => by
  unfold wfUtterance
  infer_instance

/-- No two consecutive utterances carry the same speaker label,
starting from the Writer's `current_speaker` value `cur`. -/
def adjDistinct : Option (List Char) → List ApiUtterance → Bool
  | _, [] => true
  | cur, u :: rest =>
    (some (mkSpeaker u) != cur) && adjDistinct (some (mkSpeaker u)) rest

/-- The claim's text normalization: split at newlines, trim each line,
join with single spaces (and trim the result, which the parser also
does). -/
def normText (t : List Char) : List Char :=
  pyStrip (joinSpace ((splitNl t).map pyStrip))

/-- The parsed entry the round-trip predicts for one utterance. -/
def entryOf (u : ApiUtterance) : Entry :=
  (format_timestamp u.start, mkSpeaker u, normText u.text)

/-- Number of lines matching the header pattern. -/
def headerLineCount (lines : List (List Char)) : Nat :=
  (lines.filter (fun l => (matchHeader l).isSome)).length

/-- Number of loop iterations in which the Writer's speaker differs
from `current_speaker` (the code's condition at transcribe.py
line 99). -/
def speakerChangeCount : Option (List Char) → List ApiUtterance → Nat
  | _, [] => 0
  | cur, u :: rest =>
    (if some (mkSpeaker u) = cur then 0 else 1) +
      speakerChangeCount (some (mkSpeaker u)) rest

theorem writeBody_cons_same {cur : Option (List Char)} {u : ApiUtterance}
    {rest : List ApiUtterance} (h : some (mkSpeaker u) = cur) :
    writeBody cur (u :: rest) = u.text ++ '\n' :: writeBody cur rest := by
  simp [writeBody, h]

theorem writeBody_cons_change {cur : Option (List Char)} {u : ApiUtterance}
    {rest : List ApiUtterance} (h : ¬ some (mkSpeaker u) = cur) :
    writeBody cur (u :: rest) =
      (if cur.isSome then ['\n'] else []) ++
        (hLine (format_timestamp u.start) (mkSpeaker u) ++
          ('\n' :: (u.text ++ '\n' :: writeBody (some (mkSpeaker u)) rest))) := by
  simp only [writeBody, if_neg h]
  rw [headerChunk_append]

/-- The lines of the Writer's output at a speaker change: an optional
blank separator line, the header line, the text's lines, then the lines
written for the remaining utterances. -/
theorem splitLines_writeBody_change {cur : Option (List Char)}
    {u : ApiUtterance} {rest : List ApiUtterance}
    (h : ¬ some (mkSpeaker u) = cur)
    (hts : tsDecomp (format_timestamp u.start))
    (hword : ∀ x ∈ u.speaker, isWord x = true) :
    splitLines (writeBody cur (u :: rest)) =
      (if cur.isSome then [([] : List Char)] else []) ++
        (hLine (format_timestamp u.start) (mkSpeaker u) ::
          (splitNl u.text ++
            splitLines (writeBody (some (mkSpeaker u)) rest))) := by
  have hnl : '\n' ∉ hLine (format_timestamp u.start) (mkSpeaker u) :=
    hLine_no_nl hts hword
  have hmain : splitLines (hLine (format_timestamp u.start) (mkSpeaker u) ++
      ('\n' :: (u.text ++ '\n' :: writeBody (some (mkSpeaker u)) rest))) =
      hLine (format_timestamp u.start) (mkSpeaker u) ::
        (splitNl u.text ++ splitLines (writeBody (some (mkSpeaker u)) rest)) := by
    rw [splitLines_append_nl, splitNl_no_nl hnl, splitLines_append_nl]
    rfl
  rw [writeBody_cons_change h]
  cases cur with
  | none => simpa using hmain
  | some s =>
    simp only [Option.isSome_some, if_true, List.singleton_append,
      splitLines_cons_nl, hmain]

theorem keepLine_nil : keepLine [] = false := rfl

theorem isBlankLine_nil : isBlankLine [] = true := rfl

theorem keepLine_of_clean {t : List Char}
    (hcl : ∀ l ∈ splitNl t, pyStrip l ≠ [] ∧ matchHeader l = none) :
    ∀ l ∈ splitNl t, keepLine l = true := by
  intro l hl
  obtain ⟨h1, h2⟩ := hcl l hl
  cases hpt : pyStrip l with
  | nil => exact absurd hpt h1
  | cons c cs => simp [keepLine, hpt, h2]

theorem collect_entry_text {t : List Char} (hclean : cleanText t)
    {L' : List (List Char)} (hL' : L' = [] ∨ ∃ tl, L' = [] :: tl) :
    pyStrip (joinSpace (((splitNl t ++ L').takeWhile keepLine).map pyStrip)) =
      normText t := by
  rcases hclean.2 with rfl | hcl
  · show pyStrip (joinSpace (((([] :: []) ++ L').takeWhile keepLine).map pyStrip)) = _
    rw [List.cons_append, List.takeWhile_cons, keepLine_nil]
    rfl
  · rw [takeWhile_all_append _ (keepLine_of_clean hcl)]
    have h2 : L'.takeWhile keepLine = [] := by
      rcases hL' with rfl | ⟨tl, rfl⟩
      · rfl
      · rw [List.takeWhile_cons, keepLine_nil]
        rfl
    rw [h2, List.append_nil]
    rfl

theorem collect_rest {t : List Char} (hclean : cleanText t)
    {L' : List (List Char)} (hL' : L' = [] ∨ ∃ tl, L' = [] :: tl) :
    parseM (((splitNl t ++ L').dropWhile keepLine).dropWhile isBlankLine) =
      parseM L' := by
  rcases hclean.2 with rfl | hcl
  · show parseM (((([] :: []) ++ L').dropWhile keepLine).dropWhile isBlankLine) = _
    rw [List.cons_append, List.dropWhile_cons, keepLine_nil]
    simp only [Bool.false_eq_true, if_false, List.dropWhile_cons, isBlankLine_nil,
      if_true]
    exact parseM_dropBlanks L'
  · rw [dropWhile_all_append _ (keepLine_of_clean hcl)]
    have h2 : L'.dropWhile keepLine = L' := by
      rcases hL' with rfl | ⟨tl, rfl⟩
      · rfl
      · rw [List.dropWhile_cons, keepLine_nil]
        simp
    rw [h2]
    exact parseM_dropBlanks L'

/-! ### Round-trip (claim C1) -/

theorem roundtrip_aux :
    ∀ (us : List ApiUtterance) (cur : Option (List Char)),
      (∀ u ∈ us, wfUtterance u) → adjDistinct cur us = true →
      parseM (splitLines (writeBody cur us)) = us.map entryOf := by
  intro us
  induction us with
  | nil => intro cur _ _; rfl
  | cons u rest ih =>
    intro cur hwf hadj
    obtain ⟨hspne, hword, hstart, hclean⟩ := hwf u (by simp)
    have hwfrest : ∀ v ∈ rest, wfUtterance v := fun v hv => hwf v (by simp [hv])
    simp only [adjDistinct, Bool.and_eq_true, bne_iff_ne] at hadj
    obtain ⟨hne, hadj'⟩ := hadj
    have hdecomp : tsDecomp (format_timestamp u.start) :=
      format_timestamp_tsDecomp hstart
    have hms : mkSpeaker u = "Speaker ".toList ++ u.speaker := rfl
    have hmk : matchHeader (hLine (format_timestamp u.start) (mkSpeaker u)) =
        some (format_timestamp u.start, mkSpeaker u) := by
      rw [hms]
      exact matchHeader_hLine hdecomp hspne hword
    have hL' : splitLines (writeBody (some (mkSpeaker u)) rest) = [] ∨
        ∃ tl, splitLines (writeBody (some (mkSpeaker u)) rest) = [] :: tl := by
      cases rest with
      | nil => exact Or.inl rfl
      | cons v rest' =>
        right
        simp only [adjDistinct, Bool.and_eq_true, bne_iff_ne] at hadj'
        rw [writeBody_cons_change hadj'.1]
        simp only [Option.isSome_some, if_true, List.singleton_append,
          splitLines_cons_nl]
        exact ⟨_, rfl⟩
    have hpre : ∀ X : List (List Char),
        parseM ((if cur.isSome then [([] : List Char)] else []) ++ X) =
          parseM X := by
      intro X
      cases cur with
      | none => rfl
      | some s =>
        simp only [Option.isSome_some, if_true, List.singleton_append]
        exact parseM_cons_none rfl
    rw [splitLines_writeBody_change hne hdecomp hword, hpre, parseM_cons_some hmk,
      collect_entry_text hclean hL', collect_rest hclean hL',
      ih (some (mkSpeaker u)) hwfrest hadj', List.map_cons]
    rfl

/-- C1 counterexample: the Writer suppresses the header for a second
consecutive utterance of the same speaker, so the parser merges the two
utterances into one entry; the round-trip does not reproduce the
two-element list the claim demands, even though both utterances have a
well-formed colon-free speaker label and in-pattern timestamps. -/
theorem roundtrip_counterexample :
    parse_transcript (splitLines (writeBody none
        [⟨"A".toList, 5000, "hi".toList⟩, ⟨"A".toList, 9000, "yo".toList⟩])) =
      [("0:00:05".toList, "Speaker A".toList, "hi yo".toList)] ∧
    parse_transcript (splitLines (writeBody none
        [⟨"A".toList, 5000, "hi".toList⟩, ⟨"A".toList, 9000, "yo".toList⟩])) ≠
      [("0:00:05".toList, "Speaker A".toList, "hi".toList),
        ("0:00:09".toList, "Speaker A".toList, "yo".toList)] := by decide

/-- C1 (amended) Round-trip: for every list of utterances with
well-formed colon-free speaker labels (non-empty, word characters
only), start times below one day (so the written timestamps match the
header pattern), clean texts (no carriage returns; no line of a
non-empty text is blank or header-shaped), and — the amendment — no two
consecutive utterances sharing a speaker label, serializing with the
Writer's body loop and parsing the resulting lines yields the same
ordered list, with each text normalized: lines trimmed and joined by
single spaces. -/
theorem writer_parser_roundtrip (us : List ApiUtterance)
    (hwf : ∀ u ∈ us, wfUtterance u) (hadj : adjDistinct none us = true) :
    parse_transcript (splitLines (writeBody none us)) = us.map entryOf := by
  rw [parse_transcript_eq_parseM]
  exact roundtrip_aux us none hwf hadj

/-- Witness for the amended C1 on the spec's end-to-end example. -/
theorem writer_parser_roundtrip_witness :
    (∀ u ∈ ([⟨"A".toList, 5000, "Hello there.".toList⟩,
        ⟨"B".toList, 9000, "Hi, how are you?".toList⟩] : List ApiUtterance),
      wfUtterance u) ∧
    adjDistinct none [⟨"A".toList, 5000, "Hello there.".toList⟩,
        ⟨"B".toList, 9000, "Hi, how are you?".toList⟩] = true ∧
    parse_transcript (splitLines (writeBody none
        [⟨"A".toList, 5000, "Hello there.".toList⟩,
          ⟨"B".toList, 9000, "Hi, how are you?".toList⟩])) =
      [("0:00:05".toList, "Speaker A".toList, "Hello there.".toList),
        ("0:00:09".toList, "Speaker B".toList, "Hi, how are you?".toList)] :=
  ⟨by decide, by decide,
    (writer_parser_roundtrip _ (by decide) (by decide)).trans (by decide)⟩

/-! ### Headers are written only at speaker changes (claim C2) -/

theorem headerLineCount_append (A B : List (List Char)) :
    headerLineCount (A ++ B) = headerLineCount A + headerLineCount B := by
  simp [headerLineCount, List.filter_append]

theorem headerLineCount_splitNl_clean {t : List Char} (hclean : cleanText t) :
    headerLineCount (splitNl t) = 0 := by
  rcases hclean.2 with rfl | hcl
  · rfl
  · unfold headerLineCount
    rw [List.length_eq_zero, List.filter_eq_nil_iff]
    intro l hl
    simp [(hcl l hl).2]

theorem writer_header_count_aux :
    ∀ (us : List ApiUtterance) (cur : Option (List Char)),
      (∀ u ∈ us, wfUtterance u) →
      headerLineCount (splitLines (writeBody cur us)) =
        speakerChangeCount cur us := by
  intro us
  induction us with
  | nil => intro cur _; rfl
  | cons u rest ih =>
    intro cur hwf
    obtain ⟨hspne, hword, hstart, hclean⟩ := hwf u (by simp)
    have hwfrest : ∀ v ∈ rest, wfUtterance v := fun v hv => hwf v (by simp [hv])
    by_cases heq : some (mkSpeaker u) = cur
    · rw [writeBody_cons_same heq, splitLines_append_nl, headerLineCount_append,
        headerLineCount_splitNl_clean hclean, ih cur hwfrest]
      simp [speakerChangeCount, heq]
    · have hdecomp : tsDecomp (format_timestamp u.start) :=
        format_timestamp_tsDecomp hstart
      have hms : mkSpeaker u = "Speaker ".toList ++ u.speaker := rfl
      have hmk : matchHeader (hLine (format_timestamp u.start) (mkSpeaker u)) =
          some (format_timestamp u.start, mkSpeaker u) := by
        rw [hms]
        exact matchHeader_hLine hdecomp hspne hword
      rw [splitLines_writeBody_change heq hdecomp hword, headerLineCount_append]
      have hopt : headerLineCount (if cur.isSome then [([] : List Char)] else []) = 0 := by
        cases cur <;> rfl
      have hcons : headerLineCount (hLine (format_timestamp u.start) (mkSpeaker u) ::
          (splitNl u.text ++ splitLines (writeBody (some (mkSpeaker u)) rest))) =
          1 + headerLineCount (splitNl u.text ++
            splitLines (writeBody (some (mkSpeaker u)) rest)) := by
        simp [headerLineCount, List.filter_cons, hmk, Nat.add_comm]
      rw [hopt, hcons, headerLineCount_append,
        headerLineCount_splitNl_clean hclean, ih (some (mkSpeaker u)) hwfrest]
      simp [speakerChangeCount, heq]

/-- C2 counterexample: for two consecutive utterances of the same
speaker the Writer writes only one header line, not one per utterance —
the header itself is suppressed for a repeated speaker, not merely its
leading blank line. -/
theorem writer_suppresses_header_counterexample :
    headerLineCount (splitLines (writeBody none
        [⟨"A".toList, 5000, "hi".toList⟩, ⟨"A".toList, 9000, "yo".toList⟩])) = 1 ∧
    ([⟨"A".toList, 5000, "hi".toList⟩, ⟨"A".toList, 9000, "yo".toList⟩] :
        List ApiUtterance).length = 2 := by decide

/-- C2 (amended) The Writer's serialization loop writes the header line
`[<timestamp>] <speaker>:` exactly when the utterance's speaker label
differs from `current_speaker` (the previous utterance's label, `None`
at the start): the number of header lines in the output equals the
number of speaker changes, not the number of utterances; for a repeated
speaker both the separating blank line and the header are suppressed. -/
theorem writer_header_per_speaker_change (us : List ApiUtterance)
    (hwf : ∀ u ∈ us, wfUtterance u) :
    headerLineCount (splitLines (writeBody none us)) =
      speakerChangeCount none us :=
  writer_header_count_aux us none hwf

/-- Witness for the amended C2: two same-speaker utterances produce one
header line (one speaker change). -/
theorem writer_header_per_speaker_change_witness :
    (∀ u ∈ ([⟨"A".toList, 5000, "hi".toList⟩, ⟨"A".toList, 9000, "yo".toList⟩] :
        List ApiUtterance), wfUtterance u) ∧
    headerLineCount (splitLines (writeBody none
        [⟨"A".toList, 5000, "hi".toList⟩, ⟨"A".toList, 9000, "yo".toList⟩])) =
      speakerChangeCount none
        [⟨"A".toList, 5000, "hi".toList⟩, ⟨"A".toList, 9000, "yo".toList⟩] ∧
    speakerChangeCount none
        [⟨"A".toList, 5000, "hi".toList⟩, ⟨"A".toList, 9000, "yo".toList⟩] = 1 :=
  ⟨by decide, writer_header_per_speaker_change _ (by decide), by decide⟩

end Transcribe
